import Mathlib

/-!
Shallow embedding of `tIGAr/calculusUtils.py`.

The Python module builds symbolic UFL expressions.  We model a UFL scalar
expression as an element of an arbitrary field `R`, a UFL tensor of rank `n`
over spatial dimension `d` as a component function `(Fin n → Fin d) → R`,
and the operations supplied by the external symbolic engine (the spatial
derivative `grad` on scalars and the matrix inverse `inv`) as abstract
operations bundled in a context structure `UFL`.  Index notation
(`as_tensor` with repeated indices) is modelled by explicit finite sums
over `Fin d`.  Python lists of booleans (`lowered`) are Lean `List Bool`,
indexed with `List.getD` (only in-range accesses occur under the length
invariant).  Fallible functions (`curvilinearDiv`, `getQuadRule`), whose
error branches print a message and call `exit()`, return `Option`, with
`none` for the error branch.
-/

namespace TIGAr

universe u

/-- Component model of a UFL tensor of rank `n` in spatial dimension `d`:
a map from an assignment of the `n` indices to scalar components. -/
abbrev Tensor (R : Type u) (d n : ℕ) : Type u := (Fin n → Fin d) → R

/-- Abstract interface to the external symbolic engine (UFL / dolfin):
`pd i e` is the symbolic spatial derivative of the scalar expression `e`
in direction `i` (so that UFL `grad` appends one derivative index), and
`minv` is the symbolic matrix inverse `inv`. -/
structure UFL (R : Type u) (d : ℕ) where
  pd : Fin d → R → R
  minv : Matrix (Fin d) (Fin d) R → Matrix (Fin d) (Fin d) R

variable {R : Type u} [Field R] {d : ℕ}

/-- UFL `grad` applied to a mapping `F` (a vector expression with `m`
components): `grad(F)[i,k] = pd k (F i)`. -/
def gradMap {m : ℕ} (ctx : UFL R d) (F : Fin m → R) : Matrix (Fin m) (Fin d) R :=
  Matrix.of fun i k => ctx.pd k (F i)

/-- `getMetric(F)`: `DF = grad(F); return DF.T*DF`. -/
def getMetric {m : ℕ} (ctx : UFL R d) (F : Fin m → R) : Matrix (Fin d) (Fin d) R :=
  (gradMap ctx F).transpose * gradMap ctx F

/-- `getChristoffel(g)`: `as_tensor(0.5*inv(g)[a,b]*(grad(g)[c,b,d] +
grad(g)[d,b,c] - grad(g)[d,c,b]), (a,d,c))`; `b` is the repeated (summed)
index and `grad(g)[x,y,z] = pd z (g x y)`. -/
def getChristoffel (ctx : UFL R d) (g : Matrix (Fin d) (Fin d) R) :
    Fin d → Fin d → Fin d → R :=
  fun a dd c => ∑ b, (1/2 : R) * ctx.minv g a b *
    (ctx.pd dd (g c b) + ctx.pd c (g dd b) - ctx.pd b (g dd c))

/-- `pinvD(F)`: `DF = grad(F); g = getMetric(F); return inv(g)*DF.T`. -/
def pinvD {m : ℕ} (ctx : UFL R d) (F : Fin m → R) : Matrix (Fin d) (Fin m) R :=
  ctx.minv (getMetric ctx F) * (gradMap ctx F).transpose

/-- UFL `grad` applied to a rank-`n` tensor expression: the derivative
index is appended as the new last index. -/
def gradT {n : ℕ} (ctx : UFL R d) (A : Tensor R d n) : Tensor R d (n+1) :=
  fun js => ctx.pd (js (Fin.last n)) (A fun p => js p.castSucc)

/-- `CurvilinearTensor`: components `T`, metric `g`, and the list `lowered`
of booleans recording whether each index is lowered.  Rank is the type
index `n`. -/
@[ext]
structure CurvilinearTensor (R : Type u) (d n : ℕ) where
  T : Tensor R d n
  g : Matrix (Fin d) (Fin d) R
  lowered : List Bool

namespace CurvilinearTensor

/-- `__init__` with `lowered=None`: the default is a list of `rank(T)`
copies of `True` (all indices lowered). -/
def ofT {n : ℕ} (A : Tensor R d n) (g : Matrix (Fin d) (Fin d) R) :
    CurvilinearTensor R d n :=
  ⟨A, g, List.replicate n true⟩

/-- `__add__`: `CurvilinearTensor(self.T+other.T, self.g, self.lowered)`. -/
def add {n : ℕ} (x y : CurvilinearTensor R d n) : CurvilinearTensor R d n :=
  ⟨x.T + y.T, x.g, x.lowered⟩

/-- `__sub__`: `CurvilinearTensor(self.T-other.T, self.g, self.lowered)`. -/
def sub {n : ℕ} (x y : CurvilinearTensor R d n) : CurvilinearTensor R d n :=
  ⟨x.T - y.T, x.g, x.lowered⟩

/-- `__rmul__` (scalar coefficients): `CurvilinearTensor(other*self.T,
self.g, self.lowered)`. -/
def rmul {n : ℕ} (other : R) (x : CurvilinearTensor R d n) : CurvilinearTensor R d n :=
  ⟨fun js => other * x.T js, x.g, x.lowered⟩

/-- `rank()`: the rank of the component tensor (here the type index). -/
def rank {n : ℕ} (_ : CurvilinearTensor R d n) : ℕ := n

/-- `raiseLowerIndex(i)`: contract index `i` with `inv(g)` (when index `i`
is lowered) or with `g` (when it is raised), and flip entry `i` of the
`lowered` list: `self.lowered[0:i] + [not self.lowered[i]] +
self.lowered[i+1:]`. -/
def raiseLowerIndex {n : ℕ} (ctx : UFL R d) (S : CurvilinearTensor R d n) (i : Fin n) :
    CurvilinearTensor R d n :=
  let mat := if S.lowered.getD (i : ℕ) true then ctx.minv S.g else S.g
  ⟨fun js => ∑ k, S.T (Function.update js i k) * mat k (js i),
   S.g,
   S.lowered.take (i : ℕ) ++ [!(S.lowered.getD (i : ℕ) true)] ++ S.lowered.drop ((i : ℕ)+1)⟩

/-- `raiseIndex(i)`: `raiseLowerIndex(i)` when index `i` is lowered, else
the tensor itself. -/
def raiseIndex {n : ℕ} (ctx : UFL R d) (S : CurvilinearTensor R d n) (i : Fin n) :
    CurvilinearTensor R d n :=
  if S.lowered.getD (i : ℕ) true then raiseLowerIndex ctx S i else S

/-- `lowerIndex(i)`: `raiseLowerIndex(i)` when index `i` is raised, else
the tensor itself. -/
def lowerIndex {n : ℕ} (ctx : UFL R d) (S : CurvilinearTensor R d n) (i : Fin n) :
    CurvilinearTensor R d n :=
  if !(S.lowered.getD (i : ℕ) true) then raiseLowerIndex ctx S i else S

/-- `sharp()`: `raiseIndex(i)` applied for `i` in `range(rank)`. -/
def sharp {n : ℕ} (ctx : UFL R d) (S : CurvilinearTensor R d n) : CurvilinearTensor R d n :=
  (List.finRange n).foldl (fun retval i => raiseIndex ctx retval i) S

/-- `flat()`: `lowerIndex(i)` applied for `i` in `range(rank)`. -/
def flat {n : ℕ} (ctx : UFL R d) (S : CurvilinearTensor R d n) : CurvilinearTensor R d n :=
  (List.finRange n).foldl (fun retval i => lowerIndex ctx retval i) S

end CurvilinearTensor

/-- The correction term subtracted in `covariantDerivative` for a lowered
index `i`: `as_tensor(T.T[ii[0:i]+(ii[n+1],)+ii[i+1:n]] *
gamma[(ii[n+1],ii[i],ii[n])], ii[0:n+1])`, where `ii[n]` is the new
derivative index and `ii[n+1]` the repeated (summed) index. -/
def corrLow {n : ℕ} (gamma : Fin d → Fin d → Fin d → R) (A : Tensor R d n) (i : Fin n) :
    Tensor R d (n+1) :=
  fun js => ∑ k, A (Function.update (fun p => js p.castSucc) i k) *
    gamma k (js i.castSucc) (js (Fin.last n))

/-- The correction term added in `covariantDerivative` for a raised index
`i`: `as_tensor(T.T[ii[0:i]+(ii[n+1],)+ii[i+1:n]] *
gamma[(ii[i],ii[n+1],ii[n])], ii[0:n+1])`. -/
def corrRaised {n : ℕ} (gamma : Fin d → Fin d → Fin d → R) (A : Tensor R d n) (i : Fin n) :
    Tensor R d (n+1) :=
  fun js => ∑ k, A (Function.update (fun p => js p.castSucc) i k) *
    gamma (js i.castSucc) k (js (Fin.last n))

/-- `covariantDerivative(T)`: start from `grad(T.T)` and, looping over the
original indices, subtract the Christoffel correction when the index is
lowered and add it when it is raised; the new derivative index is appended
to `lowered` as `True`. -/
def covariantDerivative {n : ℕ} (ctx : UFL R d) (T : CurvilinearTensor R d n) :
    CurvilinearTensor R d (n+1) :=
  let gamma := getChristoffel ctx T.g
  ⟨(List.finRange n).foldl
      (fun retval (i : Fin n) =>
        if T.lowered.getD (i : ℕ) true then retval - corrLow gamma T.T i
        else retval + corrRaised gamma T.T i)
      (gradT ctx T.T),
   T.g,
   T.lowered ++ [true]⟩

/-- `curvilinearGrad(T)`: `deriv = covariantDerivative(T)`, then raise the
last index with `inv(g)`: `as_tensor(deriv.T[ii[0:n+1]]*invg[ii[n:n+2]],
ii[0:n]+(ii[n+1],))`, and append `False` to `lowered`. -/
def curvilinearGrad {n : ℕ} (ctx : UFL R d) (T : CurvilinearTensor R d n) :
    CurvilinearTensor R d (n+1) :=
  let deriv := covariantDerivative ctx T
  let invg := ctx.minv T.g
  ⟨fun js => ∑ k, deriv.T (Function.update js (Fin.last n) k) * invg k (js (Fin.last n)),
   T.g,
   T.lowered ++ [false]⟩

/-- The loop `j = -1; for i in range(n): if not lowered[i]: j = i` of
`curvilinearDiv`: the position of the last raised index, `none` when all
indices are lowered (`j == -1`). -/
def lastRaised (l : List Bool) (n : ℕ) : Option ℕ :=
  (List.range n).foldl (fun j i => if l.getD i true = false then some i else j) none

/-- Insertion of the summed index `k` at position `j` among the output
indices `js`: models the index tuple `ii[0:j] ++ (ii[j],) ++ ii[j+1:]`
read off against the free output indices of `curvilinearDiv`. -/
def insertAt {m : ℕ} (j : ℕ) (k : Fin d) (js : Fin m → Fin d) : Fin (m+1) → Fin d :=
  fun p =>
    if hl : (p : ℕ) < j ∧ (p : ℕ) < m then js ⟨(p : ℕ), hl.2⟩
    else if (p : ℕ) = j then k
    else if hr : (p : ℕ) - 1 < m then js ⟨(p : ℕ) - 1, hr⟩ else k

/-- The contraction `as_tensor(deriv.T[ii[0:n]+(ii[j],)],
ii[0:j]+ii[j+1:n])` of `curvilinearDiv`: the new (last) derivative index
of `A` is identified with index `j` and summed. -/
def divContraction {n : ℕ} (A : Tensor R d (n+2)) (j : ℕ) : Tensor R d n :=
  fun js => ∑ k, A (Fin.snoc (insertAt j k js) k)

/-- `curvilinearDiv(T)`: find the last raised index `j`; when there is
none the source prints an error message and calls `exit()`, modelled as
`none`; otherwise contract the covariant derivative over the new index
and index `j`, and drop entry `j` from `lowered`.  A rank-0 tensor always
takes the error branch (the search loop is empty, so `j == -1`). -/
def curvilinearDiv : {n : ℕ} → UFL R d → CurvilinearTensor R d n →
    Option (CurvilinearTensor R d (n-1))
  | 0, _, _ => none
  | (n+1), ctx, T =>
    match lastRaised T.lowered (n+1) with
    | none => none
    | some j =>
      some ⟨divContraction (covariantDerivative ctx T).T j,
            T.g,
            T.lowered.take j ++ T.lowered.drop (j+1)⟩

/-- Abstract interface to the external engine's measures: a type of
measures, a type of forms, scalar-times-measure (`e*meas`), subdomain
restriction (`meas(marker)`), quadrature metadata
(`meas(metadata={quadrature_degree: q})`) and subdomain data
(`meas(subdomain_data=markers)`). -/
structure UFLMeasure (R : Type u) where
  Meas : Type u
  Form : Type u
  Markers : Type u
  mulM : R → Meas → Form
  callM : Meas → ℕ → Meas
  withQuadDeg : Meas → ℕ → Meas
  withMarkers : Meas → Markers → Meas

/-- `tIGArMeasure`: stores a Jacobian `J` and a measure `meas`. -/
structure tIGArMeasure (M : UFLMeasure R) where
  J : R
  meas : M.Meas

/-- `tIGArMeasure.__init__(J, meas, quadDeg=None, boundaryMarkers=None)`:
apply the quadrature-degree metadata and then the subdomain data to
`meas` when the respective arguments are given, then store `meas` and
`J`. -/
def tIGArMeasure.init (M : UFLMeasure R) (J : R) (meas : M.Meas)
    (quadDeg : Option ℕ) (boundaryMarkers : Option M.Markers) : tIGArMeasure M :=
  let meas1 := match quadDeg with
    | some q => M.withQuadDeg meas q
    | none => meas
  let meas2 := match boundaryMarkers with
    | some b => M.withMarkers meas1 b
    | none => meas1
  ⟨J, meas2⟩

/-- `__call__(marker)`: `tIGArMeasure(self.J, self.meas(marker))`. -/
def tIGArMeasure.call {M : UFLMeasure R} (m : tIGArMeasure M) (marker : ℕ) :
    tIGArMeasure M :=
  tIGArMeasure.init M m.J (M.callM m.meas marker) none none

/-- `__rmul__(other)`: `(other*self.J)*self.meas`. -/
def tIGArMeasure.rmul {M : UFLMeasure R} (m : tIGArMeasure M) (other : R) : M.Form :=
  M.mulM (other * m.J) m.meas

/-- `getQuadRule(n)`: the tabulated Gauss rules for `n = 1, 2, 3`,
returned exactly as the decimal literals of the source (modelled as exact
rationals).  For `n == 4` the source binds `xi` and `w` but has no
`return` statement, so control falls through to the error branch (`print`
followed by `exit()`), modelled as `none`; every other `n` also reaches
the error branch. -/
def getQuadRule (n : ℕ) : Option (List ℚ × List ℚ) :=
  if n = 1 then
    some ([0.0], [2.0])
  else if n = 2 then
    some ([-0.5773502691896257645091488, 0.5773502691896257645091488],
          [1.0, 1.0])
  else if n = 3 then
    some ([-0.77459666924148337703585308, 0.0, 0.77459666924148337703585308],
          [0.55555555555555555555555556, 0.88888888888888888888888889,
           0.55555555555555555555555556])
  else
    none

/-- `getQuadRuleInterval(n, L)`: scale the points and weights of
`getQuadRule(n)` by `L/2`. -/
def getQuadRuleInterval (n : ℕ) (L : ℚ) : Option (List ℚ × List ℚ) :=
  match getQuadRule n with
  | none => none
  | some (xihat, what) => some (xihat.map (fun x => L * x / 2), what.map (fun w => L * w / 2))

/-- The formula claimed for the Christoffel symbols of the second kind,
written from the specification's words: `Gamma^a_(d c) = (1/2) g^(a b)
(d_d g_(c b) + d_c g_(d b) - d_b g_(d c))` with the raised index first. -/
def christoffelSpec (ctx : UFL R d) (g : Matrix (Fin d) (Fin d) R) :
    Fin d → Fin d → Fin d → R :=
  fun a dd c => (1/2 : R) * ∑ b, ctx.minv g a b *
    (ctx.pd dd (g c b) + ctx.pd c (g dd b) - ctx.pd b (g dd c))

/-- Concrete symbolic context over `ℚ` in dimension 1 with zero symbolic
derivative and the identity as the inverse operation, used to instantiate
witnesses. -/
def ctxQ0 : UFL ℚ 1 := ⟨fun _ _ => 0, fun m0 => m0⟩

/-- Concrete symbolic context over `ℚ` in dimension 1 whose symbolic
derivative is constantly 1, used for the pseudo-inverse witness. -/
def ctxQ1 : UFL ℚ 1 := ⟨fun _ _ => 1, fun m0 => m0⟩

/-- Concrete symmetric 1-by-1 metric over `ℚ` used in witnesses. -/
def gW : Matrix (Fin 1) (Fin 1) ℚ := Matrix.of fun _ _ => 1

/-- C6: for every mapping `F` from parametric to physical space,
`getMetric(F)` returns `grad(F)^T * grad(F)`, and consequently the
returned metric tensor equals its own transpose. -/
theorem C6_getMetric_transpose_grad_symmetric {m : ℕ} (ctx : UFL R d) (F : Fin m → R) :
    getMetric ctx F = (gradMap ctx F).transpose * gradMap ctx F ∧
    (getMetric ctx F).transpose = getMetric ctx F := by
  refine ⟨rfl, ?_⟩
  unfold getMetric
  rw [Matrix.transpose_mul, Matrix.transpose_transpose]

/-- C2: for a symmetric metric `g`, `getChristoffel(g)` returns the
standard Christoffel symbols of the second kind with the raised index
first in the ordering `(a, d, c)`, and the result is symmetric in its
last two indices. -/
theorem C2_getChristoffel_standard_and_symmetric (ctx : UFL R d)
    (g : Matrix (Fin d) (Fin d) R) (hg : g.transpose = g) :
    (∀ a dd c, getChristoffel ctx g a dd c = christoffelSpec ctx g a dd c) ∧
    (∀ a dd c, getChristoffel ctx g a dd c = getChristoffel ctx g a c dd) := by
  have hsym : ∀ i j, g i j = g j i := by
    intro i j
    have := congrFun (congrFun hg j) i
    simpa [Matrix.transpose_apply] using this
  constructor
  · intro a dd c
    simp only [getChristoffel, christoffelSpec, Finset.mul_sum, mul_assoc]
  · intro a dd c
    unfold getChristoffel
    refine Finset.sum_congr rfl fun b _ => ?_
    rw [hsym dd c]
    ring

/-- Witness for C2 at a concrete symmetric metric over `ℚ`. -/
theorem C2_witness :
    gW.transpose = gW ∧
    ((∀ a dd c, getChristoffel ctxQ0 gW a dd c = christoffelSpec ctxQ0 gW a dd c) ∧
      (∀ a dd c, getChristoffel ctxQ0 gW a dd c = getChristoffel ctxQ0 gW a c dd)) :=
  ⟨rfl, C2_getChristoffel_standard_and_symmetric ctxQ0 gW rfl⟩

/-- C10: when the symbolic inverse of the metric of `F` is a (left)
inverse of it, `pinvD(F)` is a left inverse of `grad(F)`. -/
theorem C10_pinvD_left_inverse {m : ℕ} (ctx : UFL R d) (F : Fin m → R)
    (h : ctx.minv (getMetric ctx F) * getMetric ctx F = 1) :
    pinvD ctx F * gradMap ctx F = 1 := by
  unfold pinvD
  rw [Matrix.mul_assoc]
  have hmetric : (gradMap ctx F).transpose * gradMap ctx F = getMetric ctx F := rfl
  rw [hmetric, h]

/-- Witness for C10 at a concrete mapping over `ℚ` whose metric is the
1-by-1 identity matrix. -/
theorem C10_witness :
    (ctxQ1.minv (getMetric ctxQ1 (fun _ : Fin 1 => (0 : ℚ))) *
        getMetric ctxQ1 (fun _ : Fin 1 => (0 : ℚ)) = 1) ∧
    pinvD ctxQ1 (fun _ : Fin 1 => (0 : ℚ)) * gradMap ctxQ1 (fun _ : Fin 1 => (0 : ℚ)) = 1 := by
  have h : ctxQ1.minv (getMetric ctxQ1 (fun _ : Fin 1 => (0 : ℚ))) *
      getMetric ctxQ1 (fun _ : Fin 1 => (0 : ℚ)) = 1 := by
    ext i j
    fin_cases i
    fin_cases j
    simp [ctxQ1, getMetric, gradMap, Matrix.mul_apply, Matrix.one_apply]
  exact ⟨h, C10_pinvD_left_inverse ctxQ1 (fun _ : Fin 1 => (0 : ℚ)) h⟩

/-- C9: with `quadDeg=None` and `boundaryMarkers=None`, the stored data
is `J` and `meas`; `e * m` evaluates to `(e*J)*meas`, and `m(marker)`
returns a new `tIGArMeasure` with the same Jacobian and the
subdomain-restricted measure. -/
theorem C9_tIGArMeasure_rmul_call {M : UFLMeasure R} (J : R) (meas : M.Meas)
    (e : R) (marker : ℕ) :
    (tIGArMeasure.init M J meas none none).J = J ∧
    (tIGArMeasure.init M J meas none none).meas = meas ∧
    (tIGArMeasure.init M J meas none none).rmul e = M.mulM (e * J) meas ∧
    (tIGArMeasure.init M J meas none none).call marker =
      tIGArMeasure.init M J (M.callM meas marker) none none ∧
    ((tIGArMeasure.init M J meas none none).call marker).J = J ∧
    ((tIGArMeasure.init M J meas none none).call marker).meas = M.callM meas marker :=
  ⟨rfl, rfl, rfl, rfl, rfl, rfl⟩

/-- C7: evaluating the quadrature table.  For `n = 1, 2, 3` the code
returns lists of length `n` whose weights sum (exactly) to `2`, `2`, and
`2 + 1/10^26` respectively; for `n = 4` the code computes the rule but,
lacking a `return` statement, falls through to the error branch and does
not return it. -/
theorem C7_getQuadRule_four_falls_through :
    getQuadRule 4 = none ∧
    ((getQuadRule 1).map fun pw => (pw.1.length, pw.2.length)) = some (1, 1) ∧
    ((getQuadRule 2).map fun pw => (pw.1.length, pw.2.length)) = some (2, 2) ∧
    ((getQuadRule 3).map fun pw => (pw.1.length, pw.2.length)) = some (3, 3) ∧
    ((getQuadRule 1).map fun pw => pw.2.sum) = some 2 ∧
    ((getQuadRule 2).map fun pw => pw.2.sum) = some 2 ∧
    ((getQuadRule 3).map fun pw => pw.2.sum) = some (2 + 1/10^26) := by
  refine ⟨rfl, rfl, rfl, rfl, ?_, ?_, ?_⟩ <;> norm_num [getQuadRule]

theorem foldl_add_eq_sum {M : Type v} [AddCommMonoid M] {α : Type w} (f : α → M) :
    ∀ (l : List α) (a : M), l.foldl (fun acc x => acc + f x) a = a + (l.map f).sum
  | [], a => by simp
  | x :: l, a => by
    rw [List.foldl_cons, foldl_add_eq_sum f l, List.map_cons, List.sum_cons, add_assoc]

/-- C1: `covariantDerivative(T)` appends `True` to the lowered list (the
new derivative index is lowered) and its components are `grad(T.T)` with,
for each original index `i`, the Christoffel correction term subtracted
when index `i` is lowered and added when it is raised, built from the
Christoffel symbols of the metric of `T`. -/
theorem C1_covariantDerivative_grad_plus_corrections {n : ℕ} (ctx : UFL R d)
    (T : CurvilinearTensor R d n) :
    (covariantDerivative ctx T).lowered = T.lowered ++ [true] ∧
    (covariantDerivative ctx T).T = gradT ctx T.T +
      ∑ i : Fin n,
        (if T.lowered.getD (i : ℕ) true
          then -corrLow (getChristoffel ctx T.g) T.T i
          else corrRaised (getChristoffel ctx T.g) T.T i) := by
  refine ⟨rfl, ?_⟩
  show (List.finRange n).foldl
      (fun retval (i : Fin n) =>
        if T.lowered.getD (i : ℕ) true then retval - corrLow (getChristoffel ctx T.g) T.T i
        else retval + corrRaised (getChristoffel ctx T.g) T.T i)
      (gradT ctx T.T) = _
  have hfun : (fun retval (i : Fin n) =>
        if T.lowered.getD (i : ℕ) true then retval - corrLow (getChristoffel ctx T.g) T.T i
        else retval + corrRaised (getChristoffel ctx T.g) T.T i)
      = fun retval (i : Fin n) => retval +
          (if T.lowered.getD (i : ℕ) true then -corrLow (getChristoffel ctx T.g) T.T i
           else corrRaised (getChristoffel ctx T.g) T.T i) := by
    funext retval i
    by_cases hb : T.lowered.getD (i : ℕ) true
    · rw [if_pos hb, if_pos hb, sub_eq_add_neg]
    · rw [if_neg hb, if_neg hb]
  rw [hfun, foldl_add_eq_sum, Fin.sum_univ_def]

/-- C3: `curvilinearGrad(T)` equals `covariantDerivative(T)` with its last
index raised via `raiseIndex`, and its lowered list is the lowered list of
`T` with `False` appended. -/
theorem C3_curvilinearGrad_raises_last_index {n : ℕ} (ctx : UFL R d)
    (T : CurvilinearTensor R d n) (h : T.lowered.length = n) :
    curvilinearGrad ctx T =
      CurvilinearTensor.raiseIndex ctx (covariantDerivative ctx T) (Fin.last n) ∧
    (curvilinearGrad ctx T).lowered = T.lowered ++ [false] := by
  refine ⟨?_, rfl⟩
  have hlow : (covariantDerivative ctx T).lowered = T.lowered ++ [true] := rfl
  have hcat : (T.lowered ++ [true])[T.lowered.length]? = some true :=
    List.getElem?_concat_length _ _
  rw [h] at hcat
  have hget : (covariantDerivative ctx T).lowered.getD ((Fin.last n : Fin (n+1)) : ℕ) true
      = true := by
    rw [hlow, Fin.val_last, List.getD_eq_getElem?_getD, hcat]
    rfl
  rw [CurvilinearTensor.raiseIndex, if_pos hget, CurvilinearTensor.raiseLowerIndex]
  simp only [hget, if_true]
  apply CurvilinearTensor.ext
  · rfl
  · rfl
  · show T.lowered ++ [false] =
      List.take ((Fin.last n : Fin (n+1)) : ℕ) (covariantDerivative ctx T).lowered ++ [!true]
        ++ List.drop (((Fin.last n : Fin (n+1)) : ℕ)+1) (covariantDerivative ctx T).lowered
    rw [hlow, Fin.val_last, List.take_left' h,
        List.drop_eq_nil_of_le (by simp [h]), List.append_nil]
    rfl

/-- Witness for C3 at a concrete rank-0 tensor over `ℚ`. -/
theorem C3_witness :
    (⟨fun _ => 1, gW, []⟩ : CurvilinearTensor ℚ 1 0).lowered.length = 0 ∧
    (curvilinearGrad ctxQ0 (⟨fun _ => 1, gW, []⟩ : CurvilinearTensor ℚ 1 0) =
        CurvilinearTensor.raiseIndex ctxQ0
          (covariantDerivative ctxQ0 (⟨fun _ => 1, gW, []⟩ : CurvilinearTensor ℚ 1 0))
          (Fin.last 0) ∧
      (curvilinearGrad ctxQ0 (⟨fun _ => 1, gW, []⟩ : CurvilinearTensor ℚ 1 0)).lowered =
        (⟨fun _ => 1, gW, []⟩ : CurvilinearTensor ℚ 1 0).lowered ++ [false]) :=
  ⟨rfl, C3_curvilinearGrad_raises_last_index ctxQ0
    (⟨fun _ => 1, gW, []⟩ : CurvilinearTensor ℚ 1 0) rfl⟩

theorem getElem?_of_getD_false {l : List Bool} {i : ℕ} (h : l.getD i true = false) :
    l[i]? = some false := by
  rw [List.getD_eq_getElem?_getD] at h
  cases hl : l[i]? with
  | none => rw [hl] at h; simp at h
  | some b =>
    rw [hl] at h
    simp only [Option.getD_some] at h
    rw [h]

theorem lt_length_of_getD_false {l : List Bool} {i : ℕ} (h : l.getD i true = false) :
    i < l.length := by
  by_contra hn
  push_neg at hn
  rw [List.getD_eq_default _ _ hn] at h
  simp at h

theorem set_eq_self_of_getElem? {α : Type v} {l : List α} {i : ℕ} {a : α}
    (h : l[i]? = some a) : l.set i a = l := by
  apply List.ext_getElem?
  intro j
  rw [List.getElem?_set]
  by_cases hij : i = j
  · subst hij
    obtain ⟨hlt, _⟩ := List.getElem?_eq_some_iff.1 h
    rw [if_pos rfl, if_pos hlt]
    exact h.symm
  · rw [if_neg hij]

theorem raiseLowerIndex_lowered {n : ℕ} (ctx : UFL R d) (S : CurvilinearTensor R d n)
    (i : Fin n) (h : (i : ℕ) < S.lowered.length) :
    (CurvilinearTensor.raiseLowerIndex ctx S i).lowered =
      S.lowered.set (i : ℕ) (!(S.lowered.getD (i : ℕ) true)) := by
  show S.lowered.take (i : ℕ) ++ [!(S.lowered.getD (i : ℕ) true)]
      ++ S.lowered.drop ((i : ℕ)+1) = _
  rw [List.set_eq_take_cons_drop _ h]
  simp

theorem raiseIndex_lowered {n : ℕ} (ctx : UFL R d) (S : CurvilinearTensor R d n)
    (i : Fin n) (h : (i : ℕ) < S.lowered.length) :
    (CurvilinearTensor.raiseIndex ctx S i).lowered = S.lowered.set (i : ℕ) false := by
  by_cases hb : S.lowered.getD (i : ℕ) true
  · rw [CurvilinearTensor.raiseIndex, if_pos hb, raiseLowerIndex_lowered ctx S i h, hb]
    rfl
  · have hb' : S.lowered.getD (i : ℕ) true = false := by simpa using hb
    rw [CurvilinearTensor.raiseIndex, if_neg hb]
    exact (set_eq_self_of_getElem? (getElem?_of_getD_false hb')).symm

theorem lowerIndex_lowered {n : ℕ} (ctx : UFL R d) (S : CurvilinearTensor R d n)
    (i : Fin n) :
    (CurvilinearTensor.lowerIndex ctx S i).lowered = S.lowered.set (i : ℕ) true := by
  by_cases hb : S.lowered.getD (i : ℕ) true
  · rw [CurvilinearTensor.lowerIndex, if_neg (by rw [hb]; simp)]
    by_cases hlt : (i : ℕ) < S.lowered.length
    · refine (set_eq_self_of_getElem? ?_).symm
      rw [List.getD_eq_getElem _ _ hlt] at hb
      rw [List.getElem?_eq_getElem hlt, hb]
    · exact (List.set_eq_of_length_le (by omega)).symm
  · have hb' : S.lowered.getD (i : ℕ) true = false := by simpa using hb
    have hlt : (i : ℕ) < S.lowered.length := lt_length_of_getD_false hb'
    rw [CurvilinearTensor.lowerIndex, if_pos (by rw [hb']; rfl),
        raiseLowerIndex_lowered ctx S i hlt, hb']
    rfl

theorem raiseIndex_g {n : ℕ} (ctx : UFL R d) (S : CurvilinearTensor R d n) (i : Fin n) :
    (CurvilinearTensor.raiseIndex ctx S i).g = S.g := by
  rw [CurvilinearTensor.raiseIndex]
  split
  · rfl
  · rfl

theorem lowerIndex_g {n : ℕ} (ctx : UFL R d) (S : CurvilinearTensor R d n) (i : Fin n) :
    (CurvilinearTensor.lowerIndex ctx S i).g = S.g := by
  rw [CurvilinearTensor.lowerIndex]
  split
  · rfl
  · rfl

theorem foldl_raiseIndex_fields {n : ℕ} (ctx : UFL R d) :
    ∀ (is : List (Fin n)) (S : CurvilinearTensor R d n), S.lowered.length = n →
      (is.foldl (CurvilinearTensor.raiseIndex ctx) S).g = S.g ∧
      (is.foldl (CurvilinearTensor.raiseIndex ctx) S).lowered =
        is.foldl (fun l (i : Fin n) => l.set (i : ℕ) false) S.lowered
  | [], _, _ => ⟨rfl, rfl⟩
  | i :: is, S, h => by
    have hlt : (i : ℕ) < S.lowered.length := by rw [h]; exact i.isLt
    have hlen : (CurvilinearTensor.raiseIndex ctx S i).lowered.length = n := by
      rw [raiseIndex_lowered ctx S i hlt, List.length_set, h]
    obtain ⟨h1, h2⟩ :=
      foldl_raiseIndex_fields ctx is (CurvilinearTensor.raiseIndex ctx S i) hlen
    constructor
    · rw [List.foldl_cons, h1, raiseIndex_g]
    · rw [List.foldl_cons, h2, raiseIndex_lowered ctx S i hlt, List.foldl_cons]

theorem foldl_lowerIndex_fields {n : ℕ} (ctx : UFL R d) :
    ∀ (is : List (Fin n)) (S : CurvilinearTensor R d n), S.lowered.length = n →
      (is.foldl (CurvilinearTensor.lowerIndex ctx) S).g = S.g ∧
      (is.foldl (CurvilinearTensor.lowerIndex ctx) S).lowered =
        is.foldl (fun l (i : Fin n) => l.set (i : ℕ) true) S.lowered
  | [], _, _ => ⟨rfl, rfl⟩
  | i :: is, S, h => by
    have hlen : (CurvilinearTensor.lowerIndex ctx S i).lowered.length = n := by
      rw [lowerIndex_lowered ctx S i, List.length_set, h]
    obtain ⟨h1, h2⟩ :=
      foldl_lowerIndex_fields ctx is (CurvilinearTensor.lowerIndex ctx S i) hlen
    constructor
    · rw [List.foldl_cons, h1, lowerIndex_g]
    · rw [List.foldl_cons, h2, lowerIndex_lowered ctx S i, List.foldl_cons]

theorem foldl_set_getElem? {n : ℕ} (b : Bool) :
    ∀ (is : List (Fin n)) (l : List Bool) (j : ℕ),
      (is.foldl (fun l' (i : Fin n) => l'.set (i : ℕ) b) l)[j]? =
        if j ∈ is.map (fun i : Fin n => (i : ℕ)) then
          (if j < l.length then some b else none)
        else l[j]?
  | [], l, j => by simp
  | i :: is, l, j => by
    rw [List.foldl_cons, foldl_set_getElem? b is (l.set (i : ℕ) b) j]
    by_cases hmem : j ∈ is.map (fun i : Fin n => (i : ℕ))
    · rw [if_pos hmem, List.length_set,
          if_pos (show j ∈ (i :: is).map (fun i : Fin n => (i : ℕ)) by
            rw [List.map_cons]; exact List.mem_cons_of_mem _ hmem)]
    · by_cases hij : (i : ℕ) = j
      · subst hij
        rw [if_neg hmem, List.getElem?_set, if_pos rfl,
            if_pos (show (i : ℕ) ∈ (i :: is).map (fun i : Fin n => (i : ℕ)) by
              rw [List.map_cons]; exact List.mem_cons_self _ _)]
      · rw [if_neg hmem, List.getElem?_set, if_neg hij,
            if_neg (show ¬(j ∈ (i :: is).map (fun i : Fin n => (i : ℕ))) by
              rw [List.map_cons, List.mem_cons]
              push_neg
              exact ⟨fun hc => hij hc.symm, hmem⟩)]

theorem foldl_set_finRange (b : Bool) (n : ℕ) (l : List Bool) (h : l.length = n) :
    (List.finRange n).foldl (fun l' (i : Fin n) => l'.set (i : ℕ) b) l =
      List.replicate n b := by
  apply List.ext_getElem?
  intro j
  rw [foldl_set_getElem? b (List.finRange n) l j, List.getElem?_replicate]
  by_cases hj : j < n
  · have hmem : j ∈ (List.finRange n).map (fun i : Fin n => (i : ℕ)) :=
      List.mem_map.2 ⟨⟨j, hj⟩, List.mem_finRange _, rfl⟩
    rw [if_pos hmem, if_pos (show j < l.length by omega), if_pos hj]
  · have hmem : j ∉ (List.finRange n).map (fun i : Fin n => (i : ℕ)) := by
      simp only [List.mem_map]
      rintro ⟨i, _, hv⟩
      exact hj (hv ▸ i.isLt)
    rw [if_neg hmem, if_neg hj, List.getElem?_eq_none (by omega)]

/-- C5: `raiseIndex` leaves a tensor unchanged at an already-raised index
and `lowerIndex` at an already-lowered index; `sharp` produces an
all-`False` lowered list and `flat` an all-`True` one, keeping the same
metric (and the same rank, which is the type index). -/
theorem C5_raise_lower_sharp_flat {n : ℕ} (ctx : UFL R d) (T : CurvilinearTensor R d n)
    (i1 i2 : Fin n) (h : T.lowered.length = n)
    (h1 : T.lowered.getD (i1 : ℕ) true = false)
    (h2 : T.lowered.getD (i2 : ℕ) true = true) :
    CurvilinearTensor.raiseIndex ctx T i1 = T ∧
    CurvilinearTensor.lowerIndex ctx T i2 = T ∧
    (CurvilinearTensor.sharp ctx T).lowered = List.replicate n false ∧
    (CurvilinearTensor.sharp ctx T).g = T.g ∧
    (CurvilinearTensor.flat ctx T).lowered = List.replicate n true ∧
    (CurvilinearTensor.flat ctx T).g = T.g := by
  obtain ⟨hsg, hsl⟩ := foldl_raiseIndex_fields ctx (List.finRange n) T h
  obtain ⟨hfg, hfl⟩ := foldl_lowerIndex_fields ctx (List.finRange n) T h
  refine ⟨?_, ?_, ?_, hsg, ?_, hfg⟩
  · rw [CurvilinearTensor.raiseIndex, if_neg (by rw [h1]; simp)]
  · rw [CurvilinearTensor.lowerIndex, if_neg (by rw [h2]; simp)]
  · rw [CurvilinearTensor.sharp] at *
    rw [hsl, foldl_set_finRange false n T.lowered h]
  · rw [CurvilinearTensor.flat] at *
    rw [hfl, foldl_set_finRange true n T.lowered h]

/-- Witness for C5 at a concrete rank-2 tensor over `ℚ` with one raised
and one lowered index. -/
theorem C5_witness :
    (⟨fun _ => 1, gW, [false, true]⟩ : CurvilinearTensor ℚ 1 2).lowered.length = 2 ∧
    (⟨fun _ => 1, gW, [false, true]⟩ : CurvilinearTensor ℚ 1 2).lowered.getD 0 true = false ∧
    (⟨fun _ => 1, gW, [false, true]⟩ : CurvilinearTensor ℚ 1 2).lowered.getD 1 true = true ∧
    (CurvilinearTensor.raiseIndex ctxQ0
        (⟨fun _ => 1, gW, [false, true]⟩ : CurvilinearTensor ℚ 1 2) 0 =
      (⟨fun _ => 1, gW, [false, true]⟩ : CurvilinearTensor ℚ 1 2) ∧
      CurvilinearTensor.lowerIndex ctxQ0
        (⟨fun _ => 1, gW, [false, true]⟩ : CurvilinearTensor ℚ 1 2) 1 =
        (⟨fun _ => 1, gW, [false, true]⟩ : CurvilinearTensor ℚ 1 2) ∧
      (CurvilinearTensor.sharp ctxQ0
        (⟨fun _ => 1, gW, [false, true]⟩ : CurvilinearTensor ℚ 1 2)).lowered =
        List.replicate 2 false ∧
      (CurvilinearTensor.sharp ctxQ0
        (⟨fun _ => 1, gW, [false, true]⟩ : CurvilinearTensor ℚ 1 2)).g = gW ∧
      (CurvilinearTensor.flat ctxQ0
        (⟨fun _ => 1, gW, [false, true]⟩ : CurvilinearTensor ℚ 1 2)).lowered =
        List.replicate 2 true ∧
      (CurvilinearTensor.flat ctxQ0
        (⟨fun _ => 1, gW, [false, true]⟩ : CurvilinearTensor ℚ 1 2)).g = gW) :=
  ⟨rfl, rfl, rfl,
    C5_raise_lower_sharp_flat ctxQ0
      (⟨fun _ => 1, gW, [false, true]⟩ : CurvilinearTensor ℚ 1 2) 0 1 rfl rfl rfl⟩

theorem lastRaised_succ (l : List Bool) (n : ℕ) :
    lastRaised l (n+1) =
      if l.getD n true = false then some n else lastRaised l n := by
  unfold lastRaised
  rw [List.range_succ, List.foldl_append]
  rfl

theorem lastRaised_lt {l : List Bool} : ∀ {n j : ℕ}, lastRaised l n = some j → j < n
  | 0, j, h => by simp [lastRaised] at h
  | n+1, j, h => by
    rw [lastRaised_succ] at h
    by_cases hb : l.getD n true = false
    · rw [if_pos hb] at h
      injection h with h
      omega
    · rw [if_neg hb] at h
      exact Nat.lt_succ_of_lt (lastRaised_lt h)

theorem lastRaised_getD {l : List Bool} :
    ∀ {n j : ℕ}, lastRaised l n = some j → l.getD j true = false
  | 0, j, h => by simp [lastRaised] at h
  | n+1, j, h => by
    rw [lastRaised_succ] at h
    by_cases hb : l.getD n true = false
    · rw [if_pos hb] at h
      injection h with h
      exact h ▸ hb
    · rw [if_neg hb] at h
      exact lastRaised_getD h

theorem lastRaised_max {l : List Bool} :
    ∀ {n j : ℕ}, lastRaised l n = some j →
      ∀ i, j < i → i < n → l.getD i true = true
  | 0, j, h => by simp [lastRaised] at h
  | n+1, j, h => by
    rw [lastRaised_succ] at h
    by_cases hb : l.getD n true = false
    · rw [if_pos hb] at h
      injection h with h
      intro i hji hin
      exact absurd hin (by omega)
    · rw [if_neg hb] at h
      intro i hji hin
      rcases Nat.lt_succ_iff_lt_or_eq.1 hin with hlt | heq
      · exact lastRaised_max h i hji hlt
      · subst heq
        simpa using hb

theorem lastRaised_none {l : List Bool} :
    ∀ {n : ℕ}, (∀ i, i < n → l.getD i true = true) → lastRaised l n = none
  | 0, _ => rfl
  | n+1, hall => by
    rw [lastRaised_succ, hall n (Nat.lt_succ_self n)]
    rw [if_neg (by simp)]
    exact lastRaised_none fun i hi => hall i (Nat.lt_succ_of_lt hi)

theorem getD_replicate_true (m i : ℕ) : (List.replicate m true).getD i true = true := by
  rw [List.getD_eq_getElem?_getD, List.getElem?_replicate]
  split
  · rfl
  · rfl

/-- C4: every tensor produced by the public operations satisfies the
invariant that the length of its lowered list equals the rank of its
component tensor (the type index), assuming the inputs satisfy it. -/
theorem C4_lowered_length_invariant {n : ℕ} (ctx : UFL R d)
    (A : Tensor R d n) (g0 : Matrix (Fin d) (Fin d) R) (r : R)
    (T S : CurvilinearTensor R d n) (i : Fin n) (T2 : CurvilinearTensor R d (n+1))
    (hT : T.lowered.length = n) (hT2 : T2.lowered.length = n+1) :
    (CurvilinearTensor.ofT A g0).lowered.length = n ∧
    (T.add S).lowered.length = n ∧
    (T.sub S).lowered.length = n ∧
    (CurvilinearTensor.rmul r T).lowered.length = n ∧
    (CurvilinearTensor.raiseLowerIndex ctx T i).lowered.length = n ∧
    (CurvilinearTensor.raiseIndex ctx T i).lowered.length = n ∧
    (CurvilinearTensor.lowerIndex ctx T i).lowered.length = n ∧
    (CurvilinearTensor.sharp ctx T).lowered.length = n ∧
    (CurvilinearTensor.flat ctx T).lowered.length = n ∧
    (covariantDerivative ctx T).lowered.length = n + 1 ∧
    (curvilinearGrad ctx T).lowered.length = n + 1 ∧
    ((curvilinearDiv ctx T2).map fun U => U.lowered.length).getD n = n := by
  have hlt : (i : ℕ) < T.lowered.length := by rw [hT]; exact i.isLt
  refine ⟨by simp [CurvilinearTensor.ofT], hT, hT, hT, ?_, ?_, ?_, ?_, ?_, ?_, ?_, ?_⟩
  · rw [raiseLowerIndex_lowered ctx T i hlt, List.length_set, hT]
  · rw [raiseIndex_lowered ctx T i hlt, List.length_set, hT]
  · rw [lowerIndex_lowered ctx T i, List.length_set, hT]
  · rw [CurvilinearTensor.sharp, (foldl_raiseIndex_fields ctx (List.finRange n) T hT).2,
        foldl_set_finRange false n T.lowered hT, List.length_replicate]
  · rw [CurvilinearTensor.flat, (foldl_lowerIndex_fields ctx (List.finRange n) T hT).2,
        foldl_set_finRange true n T.lowered hT, List.length_replicate]
  · show (T.lowered ++ [true]).length = n + 1
    simp [hT]
  · show (T.lowered ++ [false]).length = n + 1
    simp [hT]
  · cases hlr : lastRaised T2.lowered (n+1) with
    | none => simp [curvilinearDiv, hlr]
    | some j =>
      have hj := lastRaised_lt hlr
      simp only [curvilinearDiv, hlr, Option.map_some', Option.getD_some,
        List.length_append, List.length_take, List.length_drop, hT2]
      omega

/-- Witness for C4 at concrete rank-1 and rank-2 tensors over `ℚ`. -/
theorem C4_witness :
    (⟨fun _ => 1, gW, [true]⟩ : CurvilinearTensor ℚ 1 1).lowered.length = 1 ∧
    (⟨fun _ => 1, gW, [true, false]⟩ : CurvilinearTensor ℚ 1 2).lowered.length = 2 ∧
    ((CurvilinearTensor.ofT ((fun _ => 1) : Tensor ℚ 1 1) gW).lowered.length = 1 ∧
      ((⟨fun _ => 1, gW, [true]⟩ : CurvilinearTensor ℚ 1 1).add
        ⟨fun _ => 1, gW, [true]⟩).lowered.length = 1 ∧
      ((⟨fun _ => 1, gW, [true]⟩ : CurvilinearTensor ℚ 1 1).sub
        ⟨fun _ => 1, gW, [true]⟩).lowered.length = 1 ∧
      (CurvilinearTensor.rmul 2
        (⟨fun _ => 1, gW, [true]⟩ : CurvilinearTensor ℚ 1 1)).lowered.length = 1 ∧
      (CurvilinearTensor.raiseLowerIndex ctxQ0
        (⟨fun _ => 1, gW, [true]⟩ : CurvilinearTensor ℚ 1 1) 0).lowered.length = 1 ∧
      (CurvilinearTensor.raiseIndex ctxQ0
        (⟨fun _ => 1, gW, [true]⟩ : CurvilinearTensor ℚ 1 1) 0).lowered.length = 1 ∧
      (CurvilinearTensor.lowerIndex ctxQ0
        (⟨fun _ => 1, gW, [true]⟩ : CurvilinearTensor ℚ 1 1) 0).lowered.length = 1 ∧
      (CurvilinearTensor.sharp ctxQ0
        (⟨fun _ => 1, gW, [true]⟩ : CurvilinearTensor ℚ 1 1)).lowered.length = 1 ∧
      (CurvilinearTensor.flat ctxQ0
        (⟨fun _ => 1, gW, [true]⟩ : CurvilinearTensor ℚ 1 1)).lowered.length = 1 ∧
      (covariantDerivative ctxQ0
        (⟨fun _ => 1, gW, [true]⟩ : CurvilinearTensor ℚ 1 1)).lowered.length = 1 + 1 ∧
      (curvilinearGrad ctxQ0
        (⟨fun _ => 1, gW, [true]⟩ : CurvilinearTensor ℚ 1 1)).lowered.length = 1 + 1 ∧
      ((curvilinearDiv ctxQ0
          (⟨fun _ => 1, gW, [true, false]⟩ : CurvilinearTensor ℚ 1 2)).map
        fun U => U.lowered.length).getD 1 = 1) :=
  ⟨rfl, rfl,
    C4_lowered_length_invariant ctxQ0 (fun _ => (1 : ℚ)) gW 2
      ⟨fun _ => 1, gW, [true]⟩ ⟨fun _ => 1, gW, [true]⟩ 0
      ⟨fun _ => 1, gW, [true, false]⟩ rfl rfl⟩

/-- C8: when every index of the tensor is lowered, `curvilinearDiv`
reaches the error branch (modelled as `none`, the source prints an error
message and calls `exit()` without returning a value); when some index is
raised, it returns the covariant derivative contracted over the new
derivative index and the position `j` found by the search loop, which is
the last (highest-position) raised index, with entry `j` removed from the
lowered list. -/
theorem C8_curvilinearDiv_error_and_contraction {n : ℕ} (ctx : UFL R d)
    (S T : CurvilinearTensor R d (n+1)) (j : ℕ)
    (hS : S.lowered = List.replicate (n+1) true)
    (hlen : T.lowered.length = n+1)
    (hj : lastRaised T.lowered (n+1) = some j) :
    curvilinearDiv ctx S = none ∧
    T.lowered.getD j true = false ∧
    (T.lowered.drop (j+1)).all id = true ∧
    curvilinearDiv ctx T =
      some ⟨divContraction (covariantDerivative ctx T).T j, T.g,
            T.lowered.take j ++ T.lowered.drop (j+1)⟩ := by
  refine ⟨?_, lastRaised_getD hj, ?_, ?_⟩
  · have hnone : lastRaised S.lowered (n+1) = none :=
      lastRaised_none fun i _ => by rw [hS]; exact getD_replicate_true _ _
    simp [curvilinearDiv, hnone]
  · rw [List.all_eq_true]
    intro x hx
    obtain ⟨t, ht, hxe⟩ := List.mem_iff_getElem.1 hx
    rw [List.getElem_drop] at hxe
    rw [List.length_drop] at ht
    have hlt : j + 1 + t < n + 1 := by omega
    have hmax := lastRaised_max hj (j+1+t) (by omega) hlt
    rw [List.getD_eq_getElem _ _ (by omega)] at hmax
    rw [hxe] at hmax
    simpa using hmax
  · simp [curvilinearDiv, hj]

/-- Witness for C8 at concrete rank-1 tensors over `ℚ`: one all-lowered,
one with its single index raised. -/
theorem C8_witness :
    (⟨fun _ => 1, gW, [true]⟩ : CurvilinearTensor ℚ 1 1).lowered =
      List.replicate 1 true ∧
    (⟨fun _ => 1, gW, [false]⟩ : CurvilinearTensor ℚ 1 1).lowered.length = 1 ∧
    lastRaised (⟨fun _ => 1, gW, [false]⟩ : CurvilinearTensor ℚ 1 1).lowered 1 = some 0 ∧
    (curvilinearDiv ctxQ0 (⟨fun _ => 1, gW, [true]⟩ : CurvilinearTensor ℚ 1 1) = none ∧
      (⟨fun _ => 1, gW, [false]⟩ : CurvilinearTensor ℚ 1 1).lowered.getD 0 true = false ∧
      ((⟨fun _ => 1, gW, [false]⟩ :
          CurvilinearTensor ℚ 1 1).lowered.drop (0+1)).all id = true ∧
      curvilinearDiv ctxQ0 (⟨fun _ => 1, gW, [false]⟩ : CurvilinearTensor ℚ 1 1) =
        some ⟨divContraction
                (covariantDerivative ctxQ0
                  (⟨fun _ => 1, gW, [false]⟩ : CurvilinearTensor ℚ 1 1)).T 0,
              (⟨fun _ => 1, gW, [false]⟩ : CurvilinearTensor ℚ 1 1).g,
              (⟨fun _ => 1, gW, [false]⟩ :
                  CurvilinearTensor ℚ 1 1).lowered.take 0 ++
                (⟨fun _ => 1, gW, [false]⟩ :
                  CurvilinearTensor ℚ 1 1).lowered.drop (0+1)⟩) :=
  ⟨rfl, rfl, rfl,
    C8_curvilinearDiv_error_and_contraction ctxQ0
      ⟨fun _ => 1, gW, [true]⟩ ⟨fun _ => 1, gW, [false]⟩ 0 rfl rfl rfl⟩

end TIGAr
